import Mathlib

/-!
Shallow embedding of `final_playlist_refiner.py` (the Pick-5 Final Playlist
Refiner): regex extraction of 5-digit straights, normalization to sorted
digit tuples ("boxes"), and the keep/exclude/dedupe filtering pipeline,
together with proofs of the specified properties.

Strings are modelled as `List Char`; Python `set` values become `Finset`;
Python tuples of digits become `List Nat` of fixed length; code that can
raise is modelled with `Option`/`Except`.
-/

namespace PlaylistRefiner

/-- Embedding of Python's `str.isspace`-style whitespace as used by `str.strip()`,
restricted to the ASCII whitespace characters (the only ones relevant here:
none of them is a digit). -/
def pyIsSpace (c : Char) : Bool :=
  c = ' ' || c = '\t' || c = '\n' || c = '\r' || c = '\x0b' || c = '\x0c'

/-- Embedding of Python's `str.strip()`: drop leading and trailing whitespace. -/
def pyStrip (l : List Char) : List Char :=
  ((l.dropWhile pyIsSpace).reverse.dropWhile pyIsSpace).reverse

/-- Code points starting the contiguous runs of ten Unicode decimal digits
(general category Nd, Unicode 14.0, the database of CPython 3.11): these are
the characters the regex class `\d` matches in a `str` pattern compiled
without `re.ASCII`, and the single characters `int` accepts; each run
`b .. b+9` carries the digit values `0 .. 9` in order. -/
def ndBases : List Nat :=
  [0x30, 0x660, 0x6F0, 0x7C0, 0x966, 0x9E6, 0xA66, 0xAE6, 0xB66, 0xBE6,
   0xC66, 0xCE6, 0xD66, 0xDE6, 0xE50, 0xED0, 0xF20, 0x1040, 0x1090, 0x17E0,
   0x1810, 0x1946, 0x19D0, 0x1A80, 0x1A90, 0x1B50, 0x1BB0, 0x1C40, 0x1C50,
   0xA620, 0xA8D0, 0xA900, 0xA9D0, 0xA9F0, 0xAA50, 0xABF0, 0xFF10, 0x104A0,
   0x10D30, 0x11066, 0x110F0, 0x11136, 0x111D0, 0x112F0, 0x11450, 0x114D0,
   0x11650, 0x116C0, 0x11730, 0x118E0, 0x11950, 0x11C50, 0x11D50, 0x11DA0,
   0x16A60, 0x16AC0, 0x16B50, 0x1D7CE, 0x1D7D8, 0x1D7E2, 0x1D7EC, 0x1D7F6,
   0x1E140, 0x1E2F0, 0x1E950, 0x1FBF0]

/-- Base of the decimal-digit run containing `c`, when `c` is one of the
Unicode decimal digits; `none` otherwise. -/
def decBase? (c : Char) : Option Nat :=
  ndBases.find? (fun b => decide (b ≤ c.toNat ∧ c.toNat ≤ b + 9))

/-- Embedding of the regex character class `\d` as Python matches it on `str`:
any Unicode decimal digit (category Nd), not only the ASCII `'0'..'9'`. -/
def pyIsDigit (c : Char) : Bool :=
  (decBase? c).isSome

/-- Embedding of `FIVE_DIGIT_RE.finditer` followed by `"".join(m.groups())` for
each match.  The pattern `(\d)[^\d]*?(\d)[^\d]*?(\d)[^\d]*?(\d)[^\d]*?(\d)`
captures five digit characters with only non-digits permitted between them, and
each match ends at its fifth digit, where scanning resumes.  Operationally this
is a left-to-right scan that accumulates digit characters, skips non-digits,
and emits a 5-character group every time five digits have been collected. -/
def scanFive (acc : List Char) : List Char → List (List Char)
  | [] => []
  | c :: rest =>
    if pyIsDigit c then
      if (acc ++ [c]).length = 5 then (acc ++ [c]) :: scanFive [] rest
      else scanFive (acc ++ [c]) rest
    else scanFive acc rest

/-- Embedding of `parse_straights`: strip the text, then extract the 5-digit
groups in order of occurrence (the empty-text early return coincides with
scanning an empty list). -/
def parse_straights (text : List Char) : List (List Char) :=
  scanFive [] (pyStrip text)

/-- Embedding of Python's `int(c)` on a single decimal-digit character: the
digit value is the offset of `c` within its run.  On a non-digit `int`
raises; that case is modelled by `tryBox`, and the value returned here for a
non-digit is irrelevant (every use is guarded by a digit-ness proof). -/
def pyInt (c : Char) : Nat :=
  match decBase? c with
  | some b => c.toNat - b
  | none => 0

/-- Embedding of Python's builtin `sorted` on a list of naturals (any stable
comparison sort agrees with insertion sort on a linear order). -/
def pySorted (l : List Nat) : List Nat :=
  List.insertionSort (· ≤ ·) l

/-- Embedding of the box computation `tuple(sorted(int(c) for c in s))`:
the Normalizer of the spec. -/
def normalize (s : List Char) : List Nat :=
  pySorted (s.map pyInt)

/-- Embedding of `parse_boxes_any`: the same regex matches as `parse_straights`,
each normalized to a box and collected into a set. -/
def parse_boxes_any (text : List Char) : Finset (List Nat) :=
  ((parse_straights text).map normalize).toFinset

/-- Embedding of the guarded box computation in the keep step: in Python,
`tuple(sorted(int(c) for c in s))` raises (and the `except` branch skips `s`)
iff some character of `s` is not a decimal digit; otherwise it returns the
box. -/
def tryBox (s : List Char) : Option (List Nat) :=
  if s.all pyIsDigit then some (normalize s) else none

/-- Embedding of the keep-step loop (`kept_winners`): retain, in order, each
straight whose box is in the winners set; a straight whose box computation
raises is silently skipped. -/
def kept_winners_loop (winners_boxes : Finset (List Nat)) :
    List (List Char) → List (List Char)
  | [] => []
  | s :: rest =>
    match tryBox s with
    | none => kept_winners_loop winners_boxes rest
    | some box =>
      if box ∈ winners_boxes then s :: kept_winners_loop winners_boxes rest
      else kept_winners_loop winners_boxes rest

/-- Embedding of the exclude step (`kept_final`): when the exclude set is
nonempty, drop every straight whose box is in it; otherwise the kept list is
passed through unchanged.  The comprehension's box computation is unguarded in
the source; it is modelled by the total `normalize`, and a separate safety
theorem shows every straight reaching this step is all-digits, so the Python
computation cannot raise here. -/
def excludeStep (kept_winners : List (List Char))
    (exclude_boxes : Finset (List Nat)) : List (List Char) :=
  if exclude_boxes = ∅ then kept_winners
  else kept_winners.filter (fun s => decide (normalize s ∉ exclude_boxes))

/-- Embedding of the dedupe loop: walk the list with a `seen` set and an
output accumulator, appending each straight not seen before. -/
def dedupeLoop (seen : Finset (List Char)) (deduped : List (List Char)) :
    List (List Char) → List (List Char)
  | [] => deduped
  | s :: rest =>
    if s ∈ seen then dedupeLoop seen deduped rest
    else dedupeLoop (insert s seen) (deduped ++ [s]) rest

/-- The four counters reported by the success message, in order:
"Input straights", "Winners parsed (as boxes)", "Kept after winners filter",
"Final kept after exclude". -/
structure Stats where
  inputStraights : Nat
  winnersParsed : Nat
  keptAfterWinners : Nat
  finalKept : Nat
deriving DecidableEq, Inhabited

/-- The two declared failure conditions of the pipeline. -/
inductive RefineError where
  | NoStraightsError
  | NoWinnersError
deriving DecidableEq

/-- Embedding of the whole operation, in source order: parse straights (error
if empty), parse winners boxes (error if empty), parse exclude boxes, keep
step, exclude step, optional dedupe, then the stats line computed from the
final values of the program's variables (`len(A)`, `len(winners_boxes)`,
`len(kept_winners)`, `len(kept_final)` — the last one read after the dedupe
reassignment). -/
def refine (straights_text winners_text exclude_text : List Char)
    (keep_unique : Bool) : Except RefineError (List (List Char) × Stats) :=
  let A := parse_straights straights_text
  if A = [] then .error .NoStraightsError
  else
    let winners_boxes := parse_boxes_any winners_text
    if winners_boxes = ∅ then .error .NoWinnersError
    else
      let exclude_boxes := parse_boxes_any exclude_text
      let kept_winners := kept_winners_loop winners_boxes A
      let kept_final := excludeStep kept_winners exclude_boxes
      let final := if keep_unique then dedupeLoop ∅ [] kept_final else kept_final
      .ok (final, ⟨A.length, winners_boxes.card, kept_winners.length, final.length⟩)

/-! Reference definitions written from the spec's words, for the refinement
claims: the Extractor's reference equation and the dedupe step's contract. -/

/-- Reference Extractor from the spec: the digit characters of the text,
partitioned into consecutive disjoint chunks of exactly 5, any trailing
remainder of fewer than 5 digits dropped. -/
def chunksOfFive : List Char → List (List Char)
  | d₁ :: d₂ :: d₃ :: d₄ :: d₅ :: rest => [d₁, d₂, d₃, d₄, d₅] :: chunksOfFive rest
  | _ => []

/-- Reference dedupe from the spec: remove exact duplicates, keeping the first
occurrence of each string and preserving order. -/
def keepFirst : List (List Char) → List (List Char)
  | [] => []
  | x :: xs => x :: keepFirst (xs.filter (fun y => decide (y ≠ x)))
termination_by l => l.length
decreasing_by
  simp only [List.length_cons]
  exact Nat.lt_succ_of_le (List.length_filter_le _ _)

/-- Helper used by the proofs: scan with an explicit accumulator over a
digits-only list (what `scanFive` does after non-digits are discarded). -/
def fillFive (acc : List Char) : List Char → List (List Char)
  | [] => []
  | d :: ds =>
    if (acc ++ [d]).length = 5 then (acc ++ [d]) :: fillFive [] ds
    else fillFive (acc ++ [d]) ds

end PlaylistRefiner

namespace PlaylistRefiner

/-! Extractor lemmas: the scan equals chunking the digit subsequence. -/

theorem scanFive_eq_fillFive :
    ∀ (l acc : List Char), scanFive acc l = fillFive acc (l.filter pyIsDigit)
  | [], acc => rfl
  | c :: rest, acc => by
    by_cases h : pyIsDigit c = true
    · simp [scanFive, fillFive, List.filter_cons, h,
        scanFive_eq_fillFive rest [], scanFive_eq_fillFive rest (acc ++ [c])]
    · simp [scanFive, List.filter_cons, h, scanFive_eq_fillFive rest acc]

theorem fillFive_nil_eq_chunksOfFive :
    ∀ ds : List Char, fillFive [] ds = chunksOfFive ds
  | [] => rfl
  | [_] => rfl
  | [_, _] => rfl
  | [_, _, _] => rfl
  | [_, _, _, _] => rfl
  | a :: b :: c :: d :: e :: rest => by
    simp [fillFive, chunksOfFive, fillFive_nil_eq_chunksOfFive rest]

theorem filter_dropWhile_of_imp (p q : Char → Bool)
    (h : ∀ c, q c = true → p c = false) :
    ∀ l : List Char, (l.dropWhile q).filter p = l.filter p
  | [] => rfl
  | c :: rest => by
    rw [List.dropWhile_cons]
    by_cases hq : q c = true
    · simp only [hq, if_true]
      rw [filter_dropWhile_of_imp p q h rest]
      simp [List.filter_cons, h c hq]
    · simp [hq]

theorem filter_pyStrip (p : Char → Bool)
    (h : ∀ c, pyIsSpace c = true → p c = false) (l : List Char) :
    (pyStrip l).filter p = l.filter p := by
  unfold pyStrip
  rw [List.filter_reverse, filter_dropWhile_of_imp p pyIsSpace h,
    List.filter_reverse, List.reverse_reverse,
    filter_dropWhile_of_imp p pyIsSpace h]

theorem pyIsSpace_not_pyIsDigit (c : Char) (h : pyIsSpace c = true) :
    pyIsDigit c = false := by
  simp [pyIsSpace] at h
  rcases h with ((((h | h) | h) | h) | h) | h <;> subst h <;> decide

theorem parse_straights_eq_chunksOfFive (text : List Char) :
    parse_straights text = chunksOfFive (text.filter pyIsDigit) := by
  rw [parse_straights, scanFive_eq_fillFive,
    filter_pyStrip pyIsDigit pyIsSpace_not_pyIsDigit,
    fillFive_nil_eq_chunksOfFive]

end PlaylistRefiner

namespace PlaylistRefiner

/-! Facts about the chunks and the characters they contain. -/

theorem mem_chunksOfFive :
    ∀ (ds s : List Char), s ∈ chunksOfFive ds → s.length = 5 ∧ ∀ c ∈ s, c ∈ ds
  | [], s => by simp [chunksOfFive]
  | [_], s => by simp [chunksOfFive]
  | [_, _], s => by simp [chunksOfFive]
  | [_, _, _], s => by simp [chunksOfFive]
  | [_, _, _, _], s => by simp [chunksOfFive]
  | a :: b :: c :: d :: e :: rest, s => by
    intro hs
    simp only [chunksOfFive, List.mem_cons] at hs
    rcases hs with hs | hs
    · subst hs
      refine ⟨rfl, ?_⟩
      intro x hx
      simp only [List.mem_cons] at hx ⊢
      tauto
    · obtain ⟨hlen, hmem⟩ := mem_chunksOfFive rest s hs
      refine ⟨hlen, ?_⟩
      intro x hx
      have := hmem x hx
      simp only [List.mem_cons]
      tauto

theorem chunksOfFive_length :
    ∀ ds : List Char, (chunksOfFive ds).length * 5 ≤ ds.length
  | [] => by simp [chunksOfFive]
  | [_] => by simp [chunksOfFive]
  | [_, _] => by simp [chunksOfFive]
  | [_, _, _] => by simp [chunksOfFive]
  | [_, _, _, _] => by simp [chunksOfFive]
  | a :: b :: c :: d :: e :: rest => by
    have := chunksOfFive_length rest
    simp only [chunksOfFive, List.length_cons]
    omega

theorem mem_parse_straights {text s : List Char}
    (h : s ∈ parse_straights text) :
    s.length = 5 ∧ ∀ c ∈ s, pyIsDigit c = true := by
  rw [parse_straights_eq_chunksOfFive] at h
  obtain ⟨hlen, hmem⟩ := mem_chunksOfFive _ _ h
  exact ⟨hlen, fun c hc => List.of_mem_filter (hmem c hc)⟩

theorem isDigit_iff_le (c : Char) : c.isDigit = true ↔ '0' ≤ c ∧ c ≤ '9' := by
  simp [Char.isDigit, Char.le_def]

theorem decBase_ascii {c : Char} (h : c.isDigit = true) :
    decBase? c = some 48 := by
  simp [Char.isDigit, UInt32.le_def, BitVec.le_def] at h
  rw [decBase?, ndBases]
  apply List.find?_cons_of_pos
  simp [Char.toNat, UInt32.toNat]
  omega

theorem pyInt_ascii {c : Char} (h : c.isDigit = true) :
    pyInt c = c.toNat - 48 := by
  unfold pyInt
  rw [decBase_ascii h]

theorem pyInt_le_nine {c : Char} (h : pyIsDigit c = true) : pyInt c ≤ 9 := by
  rw [pyIsDigit] at h
  obtain ⟨b, hb⟩ := Option.isSome_iff_exists.mp h
  have hb' : ndBases.find?
      (fun b => decide (b ≤ c.toNat ∧ c.toNat ≤ b + 9)) = some b := by
    rw [← decBase?, hb]
  have hp := List.find?_some hb'
  simp only [decide_eq_true_eq] at hp
  unfold pyInt
  rw [hb]
  show c.toNat - b ≤ 9
  omega

theorem ofNat_pyInt {c : Char} (h : c.isDigit = true) :
    Char.ofNat (pyInt c + 48) = c := by
  rw [pyInt_ascii h]
  simp [Char.isDigit, UInt32.le_def, BitVec.le_def] at h
  have h2 : c.toNat - 48 + 48 = c.toNat := by
    simp [Char.toNat, UInt32.toNat]
    omega
  rw [h2, Char.ofNat_toNat]

end PlaylistRefiner

namespace PlaylistRefiner

/-! Normalizer lemmas: the box is the sorted permutation of the digit values,
and two all-digit strings have equal boxes iff they are permutations. -/

theorem normalize_sorted (s : List Char) : List.Sorted (· ≤ ·) (normalize s) :=
  List.sorted_insertionSort _ _

theorem normalize_perm (s : List Char) : (normalize s).Perm (s.map pyInt) :=
  List.perm_insertionSort _ _

theorem normalize_length (s : List Char) : (normalize s).length = s.length := by
  rw [(normalize_perm s).length_eq, List.length_map]

theorem map_pyInt_back {s : List Char} (hs : ∀ c ∈ s, c.isDigit = true) :
    (s.map pyInt).map (fun d => Char.ofNat (d + 48)) = s := by
  rw [List.map_map]
  have h2 : List.map ((fun d => Char.ofNat (d + 48)) ∘ pyInt) s
      = List.map (fun c => c) s :=
    List.map_congr_left fun c hc => ofNat_pyInt (hs c hc)
  rw [h2, List.map_id']

theorem normalize_eq_iff {s t : List Char}
    (hs : ∀ c ∈ s, c.isDigit = true) (ht : ∀ c ∈ t, c.isDigit = true) :
    normalize s = normalize t ↔ s.Perm t := by
  constructor
  · intro h
    have hmaps : (s.map pyInt).Perm (t.map pyInt) :=
      (normalize_perm s).symm.trans (h ▸ normalize_perm t)
    have hback := hmaps.map (fun d => Char.ofNat (d + 48))
    rwa [map_pyInt_back hs, map_pyInt_back ht] at hback
  · intro h
    exact List.eq_of_perm_of_sorted
      ((normalize_perm s).trans ((h.map pyInt).trans (normalize_perm t).symm))
      (normalize_sorted s) (normalize_sorted t)

end PlaylistRefiner

namespace PlaylistRefiner

theorem kept_winners_loop_sublist (w : Finset (List Nat)) :
    ∀ A : List (List Char), (kept_winners_loop w A).Sublist A
  | [] => List.Sublist.refl _
  | s :: rest => by
    cases h : tryBox s with
    | none =>
      simp only [kept_winners_loop, h]
      exact (kept_winners_loop_sublist w rest).cons s
    | some box =>
      simp only [kept_winners_loop, h]
      split
      · exact (kept_winners_loop_sublist w rest).cons₂ s
      · exact (kept_winners_loop_sublist w rest).cons s

theorem excludeStep_sublist (kept : List (List Char))
    (ex : Finset (List Nat)) : (excludeStep kept ex).Sublist kept := by
  rw [excludeStep]
  split
  · exact List.Sublist.refl _
  · exact List.filter_sublist kept

theorem excludeStep_empty (kept : List (List Char)) :
    excludeStep kept ∅ = kept := by
  rw [excludeStep, if_pos rfl]

theorem keepFirst_sublist : ∀ l : List (List Char), (keepFirst l).Sublist l
  | [] => by rw [keepFirst]
  | x :: xs => by
    rw [keepFirst]
    exact List.Sublist.cons₂ x
      ((keepFirst_sublist _).trans (List.filter_sublist xs))
termination_by l => l.length
decreasing_by
  simp only [List.length_cons]
  exact Nat.lt_succ_of_le (List.length_filter_le _ _)

theorem dedupeLoop_append (seen : Finset (List Char)) :
    ∀ (l acc : List (List Char)),
      dedupeLoop seen acc l = acc ++ dedupeLoop seen [] l
  | [], acc => by simp [dedupeLoop]
  | s :: rest, acc => by
    by_cases hs : s ∈ seen
    · simp only [dedupeLoop, hs, if_true]
      exact dedupeLoop_append seen rest acc
    · simp only [dedupeLoop, hs, if_false]
      rw [dedupeLoop_append _ rest (acc ++ [s])]
      simp [dedupeLoop_append (insert s seen) rest [s]]

theorem filter_filter_notMem (seen : Finset (List Char)) (s : List Char)
    (l : List (List Char)) :
    (l.filter (fun y => decide (y ∉ seen))).filter (fun y => decide (y ≠ s))
      = l.filter (fun y => decide (y ∉ insert s seen)) := by
  rw [List.filter_filter]
  apply List.filter_congr
  intro y _
  by_cases h1 : y = s
  · subst h1; simp
  · by_cases h2 : y ∈ seen <;> simp [h1, h2]

theorem dedupeLoop_eq_keepFirst_filter :
    ∀ (l : List (List Char)) (seen : Finset (List Char)),
      dedupeLoop seen [] l = keepFirst (l.filter (fun y => decide (y ∉ seen)))
  | [], seen => by simp [dedupeLoop, keepFirst]
  | s :: rest, seen => by
    by_cases hs : s ∈ seen
    · simp only [dedupeLoop, hs, if_true, List.filter_cons]
      simp [hs, dedupeLoop_eq_keepFirst_filter rest seen]
    · simp only [dedupeLoop, hs, if_false, List.filter_cons]
      rw [dedupeLoop_append (insert s seen) rest ([] ++ [s])]
      simp only [List.nil_append]
      rw [dedupeLoop_eq_keepFirst_filter rest (insert s seen)]
      simp only [not_false_eq_true, decide_True, if_true, keepFirst,
        filter_filter_notMem]
      rfl

theorem dedupeLoop_eq_keepFirst (l : List (List Char)) :
    dedupeLoop ∅ [] l = keepFirst l := by
  rw [dedupeLoop_eq_keepFirst_filter l ∅]
  congr 1
  apply List.filter_eq_self.mpr
  intro a _
  simp

end PlaylistRefiner

namespace PlaylistRefiner

theorem refine_ok_inv {s w e : List Char} {d : Bool}
    {r : List (List Char)} {st : Stats}
    (h : refine s w e d = .ok (r, st)) :
    parse_straights s ≠ [] ∧ parse_boxes_any w ≠ ∅ ∧
    r = (if d then
          dedupeLoop ∅ [] (excludeStep
            (kept_winners_loop (parse_boxes_any w) (parse_straights s))
            (parse_boxes_any e))
        else excludeStep
            (kept_winners_loop (parse_boxes_any w) (parse_straights s))
            (parse_boxes_any e)) ∧
    st = ⟨(parse_straights s).length, (parse_boxes_any w).card,
          (kept_winners_loop (parse_boxes_any w) (parse_straights s)).length,
          r.length⟩ := by
  simp only [refine] at h
  split at h
  · exact absurd h (by simp)
  · split at h
    · exact absurd h (by simp)
    · simp only [Except.ok.injEq, Prod.mk.injEq] at h
      obtain ⟨hr, hst⟩ := h
      refine ⟨by assumption, by assumption, hr.symm, ?_⟩
      rw [← hst, ← hr]

theorem list_eq_five : ∀ {s : List Char}, s.length = 5 →
    ∃ a b c d e, s = [a, b, c, d, e]
  | [a, b, c, d, e], _ => ⟨a, b, c, d, e, rfl⟩
  | [], h => by simp at h
  | [_], h => by simp at h
  | [_, _], h => by simp at h
  | [_, _, _], h => by simp at h
  | [_, _, _, _], h => by simp at h
  | _ :: _ :: _ :: _ :: _ :: _ :: _, h => by
    simp only [List.length_cons] at h
    omega

/-- C1: for every input combination on which `refine` succeeds, the result is
an order-preserving subsequence of the parsed straights, and the keep step
alone already produces such a subsequence. -/
theorem c1_result_is_subsequence :
    (∀ (s w e : List Char) (d : Bool) (r : List (List Char)) (st : Stats),
      refine s w e d = .ok (r, st) → r.Sublist (parse_straights s)) ∧
    (∀ (w : Finset (List Nat)) (A : List (List Char)),
      (kept_winners_loop w A).Sublist A) := by
  constructor
  · intro s w e d r st h
    obtain ⟨-, -, hr, -⟩ := refine_ok_inv h
    subst hr
    have hkw := kept_winners_loop_sublist (parse_boxes_any w) (parse_straights s)
    have hex := excludeStep_sublist
      (kept_winners_loop (parse_boxes_any w) (parse_straights s))
      (parse_boxes_any e)
    split
    · exact ((dedupeLoop_eq_keepFirst _ ▸ keepFirst_sublist _).trans hex).trans hkw
    · exact hex.trans hkw
  · exact kept_winners_loop_sublist

/-- Witness for C1 at a concrete successful invocation. -/
theorem c1_witness :
    List.Sublist ["12345".data] (parse_straights "12345".data) ∧
    (kept_winners_loop (parse_boxes_any "12345".data)
      (parse_straights "12345".data)).Sublist (parse_straights "12345".data) :=
  ⟨c1_result_is_subsequence.1 "12345".data "12345".data [] false
      ["12345".data] ⟨1, 1, 1, 1⟩ rfl,
    c1_result_is_subsequence.2 (parse_boxes_any "12345".data)
      (parse_straights "12345".data)⟩

/-- C2 (amended): the Extractor equals chunking the text's subsequence of
decimal-digit characters — the characters the pattern's `\d` matches, i.e.
the Unicode decimal digits, not only `'0'..'9'` — into consecutive disjoint
groups of exactly 5 with any shorter remainder dropped; consequently five
times the output length is at most the decimal-digit count of the text. -/
theorem c2_extractor_reference :
    ∀ text : List Char,
      parse_straights text = chunksOfFive (text.filter pyIsDigit) ∧
      (parse_straights text).length * 5 ≤ (text.filter pyIsDigit).length := by
  intro text
  refine ⟨parse_straights_eq_chunksOfFive text, ?_⟩
  rw [parse_straights_eq_chunksOfFive]
  exact chunksOfFive_length _

/-- Counterexample to C2 as stated: reading "digit characters" as the ten
numerals (the `Char.isDigit` test), the reference equation and the
digit-count bound both fail on five Arabic-Indic digits (U+0665), which the
program's `\d` extracts as one straight although the text contains no
`'0'..'9'` character at all. -/
theorem c2_counterexample :
    parse_straights "٥٥٥٥٥".data =
      ["٥٥٥٥٥".data] ∧
    chunksOfFive
      ("٥٥٥٥٥".data.filter Char.isDigit) = [] ∧
    ¬((parse_straights "٥٥٥٥٥".data).length * 5 ≤
      ("٥٥٥٥٥".data.filter Char.isDigit).length) :=
  ⟨by decide, by decide, by decide⟩

/-- C3: the Normalizer returns the five digits sorted ascending, two all-digit
5-character strings are permutations iff their boxes are equal, and the
concrete boxes from the spec compute as stated. -/
theorem c3_normalizer :
    (∀ s t : List Char, s.length = 5 → t.length = 5 →
      (∀ c ∈ s, '0' ≤ c ∧ c ≤ '9') → (∀ c ∈ t, '0' ≤ c ∧ c ≤ '9') →
      (s.Perm t ↔ normalize s = normalize t)) ∧
    (∀ s : List Char, s.length = 5 →
      List.Sorted (· ≤ ·) (normalize s) ∧ (normalize s).length = 5 ∧
        (normalize s).Perm (s.map pyInt)) ∧
    normalize "08949".data = [0, 4, 8, 9, 9] ∧
    normalize "09489".data = [0, 4, 8, 9, 9] ∧
    normalize "08949".data ≠ normalize "08950".data := by
  refine ⟨?_, ?_, by decide, by decide, by decide⟩
  · intro s t _ _ hs ht
    have hs' : ∀ c ∈ s, c.isDigit = true :=
      fun c hc => (isDigit_iff_le c).mpr (hs c hc)
    have ht' : ∀ c ∈ t, c.isDigit = true :=
      fun c hc => (isDigit_iff_le c).mpr (ht c hc)
    exact (normalize_eq_iff hs' ht').symm
  · intro s h5
    exact ⟨normalize_sorted s, by rw [normalize_length, h5], normalize_perm s⟩

/-- Witness for C3 at the spec's concrete straights. -/
theorem c3_witness :
    ("08949".data.Perm "09489".data ↔
      normalize "08949".data = normalize "09489".data) ∧
    (List.Sorted (· ≤ ·) (normalize "08949".data) ∧
      (normalize "08949".data).length = 5 ∧
      (normalize "08949".data).Perm ("08949".data.map pyInt)) :=
  ⟨c3_normalizer.1 "08949".data "09489".data (by decide) (by decide)
      (by decide) (by decide),
    c3_normalizer.2.1 "08949".data (by decide)⟩

/-- C5 (amended): every extracted straight is exactly five characters, each a
Unicode decimal digit (the characters `\d` matches — not necessarily one of
`'0'..'9'`), and every component of its box is an integer at most 9. -/
theorem c5_extracted_are_digits :
    ∀ (text s : List Char), s ∈ parse_straights text →
      s.length = 5 ∧ (∀ c ∈ s, pyIsDigit c = true) ∧
        ∀ d ∈ normalize s, d ≤ 9 := by
  intro text s hs
  obtain ⟨hlen, hdig⟩ := mem_parse_straights hs
  refine ⟨hlen, hdig, ?_⟩
  intro d hd
  have hd' := (normalize_perm s).mem_iff.mp hd
  obtain ⟨c, hc, rfl⟩ := List.mem_map.mp hd'
  exact pyInt_le_nine (hdig c hc)

/-- Counterexample to C5 as stated: the straight extracted from five
Arabic-Indic digits (U+0665) consists of characters none of which lies in
`'0'..'9'`, though the regex matched them. -/
theorem c5_counterexample :
    "٥٥٥٥٥".data ∈
      parse_straights "٥٥٥٥٥".data ∧
    ¬∀ c ∈ "٥٥٥٥٥".data, '0' ≤ c ∧ c ≤ '9' :=
  ⟨by decide, by decide⟩

/-- Witness for C5 at a concrete input. -/
theorem c5_witness :
    "08949".data.length = 5 ∧
    (∀ c ∈ "08949".data, pyIsDigit c = true) ∧
    ∀ d ∈ normalize "08949".data, d ≤ 9 :=
  c5_extracted_are_digits "08949".data "08949".data (by decide)

/-- C6: the operation fails with `NoStraightsError` iff no straight parses
(regardless of the winners input), otherwise with `NoWinnersError` iff the
winners box set is empty; it succeeds in every other case, so an empty or
absent exclude input is never an error. -/
theorem c6_error_contract :
    ∀ (s w e : List Char) (d : Bool),
      (refine s w e d = .error .NoStraightsError ↔ parse_straights s = []) ∧
      (refine s w e d = .error .NoWinnersError ↔
        parse_straights s ≠ [] ∧ parse_boxes_any w = ∅) ∧
      ((∃ out, refine s w e d = .ok out) ↔
        parse_straights s ≠ [] ∧ parse_boxes_any w ≠ ∅) := by
  intro s w e d
  by_cases h1 : parse_straights s = []
  · simp [refine, h1]
  · by_cases h2 : parse_boxes_any w = ∅
    · simp [refine, h1, h2]
    · simp [refine, h1, h2]

/-- Witness for C6: empty straights fail first, and a full run succeeds. -/
theorem c6_witness :
    refine [] "14788".data [] false = .error .NoStraightsError ∧
    refine "17488".data [] [] false = .error .NoWinnersError :=
  ⟨(c6_error_contract [] "14788".data [] false).1.mpr rfl,
    (c6_error_contract "17488".data [] [] false).2.1.mpr ⟨by decide, rfl⟩⟩

/-- C7: the exclude step only removes elements (its output is an ordered
subsequence of its input) and is the identity when the exclude set is empty. -/
theorem c7_exclude_monotone :
    ∀ (kept : List (List Char)) (ex : Finset (List Nat)),
      (excludeStep kept ex).Sublist kept ∧
      (ex = ∅ → excludeStep kept ex = kept) := by
  intro kept ex
  exact ⟨excludeStep_sublist kept ex, fun h => h ▸ excludeStep_empty kept⟩

/-- Witness for C7 on a concrete kept list and the empty exclude set. -/
theorem c7_witness :
    (excludeStep ["17488".data] ∅).Sublist ["17488".data] ∧
    excludeStep ["17488".data] ∅ = ["17488".data] :=
  ⟨(c7_exclude_monotone ["17488".data] ∅).1,
    (c7_exclude_monotone ["17488".data] ∅).2 rfl⟩

/-- C4 (amended): the first three counters are the input-straight count, the
distinct-winner-box count and the keep-step output count; the fourth counter
equals the length of the final result list, which coincides with the exclude
step's output only when the dedupe flag is disabled. -/
theorem c4_stats_contract :
    ∀ (s w e : List Char) (d : Bool) (r : List (List Char)) (st : Stats),
      refine s w e d = .ok (r, st) →
      st.inputStraights = (parse_straights s).length ∧
      st.winnersParsed = (parse_boxes_any w).card ∧
      st.keptAfterWinners =
        (kept_winners_loop (parse_boxes_any w) (parse_straights s)).length ∧
      st.finalKept = r.length ∧
      (d = false → st.finalKept =
        (excludeStep (kept_winners_loop (parse_boxes_any w) (parse_straights s))
          (parse_boxes_any e)).length) := by
  intro s w e d r st h
  obtain ⟨-, -, hr, hst⟩ := refine_ok_inv h
  subst hst
  refine ⟨rfl, rfl, rfl, rfl, ?_⟩
  intro hd
  subst hd
  simp only [if_neg Bool.false_ne_true] at hr
  rw [hr]

/-- Counterexample to C4 as stated: with the dedupe flag enabled on duplicated
straights, the reported fourth counter is 1 while the exclude step's output
has 2 elements. -/
theorem c4_counterexample :
    refine "17488\n17488".data "14788".data [] true =
      .ok (["17488".data], ⟨2, 1, 2, 1⟩) ∧
    (excludeStep
      (kept_winners_loop (parse_boxes_any "14788".data)
        (parse_straights "17488\n17488".data))
      (parse_boxes_any [])).length = 2 :=
  ⟨rfl, rfl⟩

/-- Witness for C4 at a concrete dedupe-disabled invocation. -/
theorem c4_witness :
    Stats.inputStraights ⟨2, 1, 2, 2⟩ =
      (parse_straights "17488\n17488".data).length ∧
    Stats.winnersParsed ⟨2, 1, 2, 2⟩ = (parse_boxes_any "14788".data).card ∧
    Stats.keptAfterWinners ⟨2, 1, 2, 2⟩ =
      (kept_winners_loop (parse_boxes_any "14788".data)
        (parse_straights "17488\n17488".data)).length ∧
    Stats.finalKept ⟨2, 1, 2, 2⟩ = ["17488".data, "17488".data].length ∧
    (false = false → Stats.finalKept ⟨2, 1, 2, 2⟩ =
      (excludeStep
        (kept_winners_loop (parse_boxes_any "14788".data)
          (parse_straights "17488\n17488".data))
        (parse_boxes_any [])).length) :=
  c4_stats_contract "17488\n17488".data "14788".data [] false
    ["17488".data, "17488".data] ⟨2, 1, 2, 2⟩ rfl

/-- C8: the enabled dedupe step removes exact duplicates keeping each first
occurrence in order (it equals the spec's reference dedupe), and the concrete
scenario from the spec yields the stated results with the flag off and on. -/
theorem c8_dedupe_semantics :
    (∀ l : List (List Char), dedupeLoop ∅ [] l = keepFirst l) ∧
    refine "17488\n17488".data "14788".data [] false =
      .ok (["17488".data, "17488".data], ⟨2, 1, 2, 2⟩) ∧
    refine "17488\n17488".data "14788".data [] true =
      .ok (["17488".data], ⟨2, 1, 2, 1⟩) :=
  ⟨dedupeLoop_eq_keepFirst, rfl, rfl⟩

/-- C9: the box computation succeeds (never raises) on every extracted
straight, both as parsed and as it reaches the exclude step after the keep
step, returning exactly the normalized box. -/
theorem c9_box_total_on_extracted :
    ∀ (text : List Char) (winners : Finset (List Nat)) (s : List Char),
      (s ∈ parse_straights text → tryBox s = some (normalize s)) ∧
      (s ∈ kept_winners_loop winners (parse_straights text) →
        tryBox s = some (normalize s)) := by
  intro text winners s
  have key : s ∈ parse_straights text → tryBox s = some (normalize s) := by
    intro hs
    obtain ⟨-, hdig⟩ := mem_parse_straights hs
    rw [tryBox, if_pos]
    exact List.all_eq_true.mpr hdig
  refine ⟨key, fun hmem => key ?_⟩
  exact (kept_winners_loop_sublist winners (parse_straights text)).subset hmem

/-- Witness for C9 at a concrete extracted straight. -/
theorem c9_witness :
    tryBox "08949".data = some (normalize "08949".data) :=
  (c9_box_total_on_extracted "08949".data ∅ "08949".data).1 (by decide)

/-- C10: for every extracted straight, `parse_boxes_any` on that straight
alone yields exactly the singleton of the box computed inline in the keep and
exclude steps. -/
theorem c10_normalization_paths_agree :
    ∀ (text s : List Char), s ∈ parse_straights text →
      parse_boxes_any s = {normalize s} := by
  intro text s hs
  obtain ⟨hlen, hdig⟩ := mem_parse_straights hs
  have hself : parse_straights s = [s] := by
    rw [parse_straights_eq_chunksOfFive, List.filter_eq_self.mpr hdig]
    obtain ⟨a, b, c, d, e, rfl⟩ := list_eq_five hlen
    rfl
  rw [parse_boxes_any, hself]
  simp

/-- Witness for C10 at a concrete extracted straight. -/
theorem c10_witness :
    parse_boxes_any "08949".data = {normalize "08949".data} :=
  c10_normalization_paths_agree "08949".data "08949".data (by decide)

end PlaylistRefiner
